import Mathlib

/-
Verification of generar_credenciales.py: a one-shot batch script that
base64-inlines a profile photo and the rasterized pages of four PDF files
into an HTML template, producing a single self-contained HTML document.

Strings are modelled as List Char (Python str), file bytes as List Nat
(each byte in 0..255).
-/

set_option maxHeartbeats 2000000

/-! ## Base64 (Python base64.b64encode / b64decode, standard alphabet) -/

/-- Standard base64 alphabet (RFC 4648), the one used by Python base64.b64encode. -/
def b64Alphabet : List Char := "ABCDEFGHIJKLMNOPQRSTUVWXYZabcdefghijklmnopqrstuvwxyz0123456789+/".data

/-- Character for a 6-bit group (indices are < 64 in every use). -/
def b64Char (i : Nat) : Char := b64Alphabet.getD i 'A'

/-- base64.b64encode on a byte list, bit fields written with / and % by
powers of two; '=' is padding. -/
def b64encode : List Nat → List Char
  | [] => []
  | [b1] => [b64Char (b1 / 4), b64Char (b1 % 4 * 16), '=', '=']
  | [b1, b2] => [b64Char (b1 / 4), b64Char (b1 % 4 * 16 + b2 / 16), b64Char (b2 % 16 * 4), '=']
  | b1 :: b2 :: b3 :: rest =>
      b64Char (b1 / 4) :: b64Char (b1 % 4 * 16 + b2 / 16) ::
      b64Char (b2 % 16 * 4 + b3 / 64) :: b64Char (b3 % 64) :: b64encode rest

/-- Position of a character in a list, counting from i. -/
def b64IndexAux (c : Char) : List Char → Nat → Option Nat
  | [], _ => none
  | a :: rest, i => if a = c then some i else b64IndexAux c rest (i + 1)

/-- Index of a character in the base64 alphabet. -/
def b64Index (c : Char) : Option Nat := b64IndexAux c b64Alphabet 0

/-- base64 decoding: groups of four characters, '=' padding allowed only at
the very end; rejects characters outside the alphabet. -/
def b64decode : List Char → Option (List Nat)
  | [] => some []
  | c1 :: c2 :: c3 :: c4 :: rest =>
    if c3 = '=' then
      if c4 = '=' && rest.isEmpty then
        match b64Index c1, b64Index c2 with
        | some i1, some i2 => some [i1 * 4 + i2 / 16]
        | _, _ => none
      else none
    else if c4 = '=' then
      if rest.isEmpty then
        match b64Index c1, b64Index c2, b64Index c3 with
        | some i1, some i2, some i3 => some [i1 * 4 + i2 / 16, i2 % 16 * 16 + i3 / 4]
        | _, _, _ => none
      else none
    else
      match b64Index c1, b64Index c2, b64Index c3, b64Index c4, b64decode rest with
      | some i1, some i2, some i3, some i4, some bs =>
          some ((i1 * 4 + i2 / 16) :: (i2 % 16 * 16 + i3 / 4) :: (i3 % 4 * 64 + i4) :: bs)
      | _, _, _, _, _ => none
  | _ => none

/-- encode_file_b64 reads a file's bytes and base64-encodes them; the final
.decode of the ASCII base64 bytes is the identity on the text. We model it
on the byte content of the file. -/
def encode_file_b64 (fileBytes : List Nat) : List Char := b64encode fileBytes

theorem b64Index_b64Char (i : Nat) (h : i < 64) : b64Index (b64Char i) = some i := by
  revert h; revert i; decide

theorem b64Char_ne_pad (i : Nat) : b64Char i ≠ '=' := by
  by_cases h : i < 64
  · revert h; revert i; decide
  · unfold b64Char
    rw [ List.getD_eq_default]
    · decide
    · have hlen : b64Alphabet.length = 64 := by decide
      omega

theorem b64Char_mem_alphabet (i : Nat) : b64Char i ∈ b64Alphabet := by
  by_cases h : i < 64
  · revert h; revert i; decide
  · unfold b64Char
    rw [ List.getD_eq_default]
    · decide
    · have hlen : b64Alphabet.length = 64 := by decide
      omega

/-- Every character produced by the encoder is in the alphabet or padding. -/
theorem b64encode_chars (bs : List Nat) :
    ∀ c ∈ b64encode bs, c ∈ b64Alphabet ∨ c = '=' := by
  induction bs using b64encode.induct with
  | case1 => intro c hc; simp [b64encode] at hc
  | case2 b1 =>
    intro c hc
    simp only [b64encode, List.mem_cons, List.not_mem_nil, or_false] at hc
    rcases hc with h | h | h | h
    all_goals first
      | (left; rw [h]; exact b64Char_mem_alphabet _)
      | (right; exact h)
  | case3 b1 b2 =>
    intro c hc
    simp only [b64encode, List.mem_cons, List.not_mem_nil, or_false] at hc
    rcases hc with h | h | h | h
    all_goals first
      | (left; rw [h]; exact b64Char_mem_alphabet _)
      | (right; exact h)
  | case4 b1 b2 b3 rest ih =>
    intro c hc
    simp only [b64encode, List.mem_cons] at hc
    rcases hc with h | h | h | h | h
    · left; rw [h]; exact b64Char_mem_alphabet _
    · left; rw [h]; exact b64Char_mem_alphabet _
    · left; rw [h]; exact b64Char_mem_alphabet _
    · left; rw [h]; exact b64Char_mem_alphabet _
    · exact ih c h

theorem b64encode_no_lt (bs : List Nat) : ∀ c ∈ b64encode bs, c ≠ '<' := by
  intro c hc
  rcases b64encode_chars bs c hc with h | h
  · intro hlt; rw [hlt] at h; revert h; decide
  · intro hlt; rw [hlt] at h; exact absurd h (by decide)

/-- C1: base64-decoding the string returned by the file encoder reproduces
the original bytes exactly, for every byte list (file content). -/
theorem encode_file_b64_roundtrip (bs : List Nat) (hb : ∀ b ∈ bs, b < 256) :
    b64decode (encode_file_b64 bs) = some bs := by
  unfold encode_file_b64
  induction bs using b64encode.induct with
  | case1 => rfl
  | case2 b1 =>
    have h1 : b1 < 256 := hb b1 (by simp)
    have d1 : b64Index (b64Char (b1 / 4)) = some (b1 / 4) := b64Index_b64Char _ (by omega)
    have d2 : b64Index (b64Char (b1 % 4 * 16)) = some (b1 % 4 * 16) :=
      b64Index_b64Char _ (by omega)
    simp only [b64encode, b64decode, d1, d2]
    simp
    omega
  | case3 b1 b2 =>
    have h1 : b1 < 256 := hb b1 (by simp)
    have h2 : b2 < 256 := hb b2 (by simp)
    have d1 : b64Index (b64Char (b1 / 4)) = some (b1 / 4) := b64Index_b64Char _ (by omega)
    have d2 : b64Index (b64Char (b1 % 4 * 16 + b2 / 16)) = some (b1 % 4 * 16 + b2 / 16) :=
      b64Index_b64Char _ (by omega)
    have d3 : b64Index (b64Char (b2 % 16 * 4)) = some (b2 % 16 * 4) :=
      b64Index_b64Char _ (by omega)
    simp only [b64encode, b64decode, d1, d2, d3, if_neg (b64Char_ne_pad (b2 % 16 * 4))]
    simp
    omega
  | case4 b1 b2 b3 rest ih =>
    have h1 : b1 < 256 := hb b1 (by simp)
    have h2 : b2 < 256 := hb b2 (by simp)
    have h3 : b3 < 256 := hb b3 (by simp)
    have hrest : ∀ b ∈ rest, b < 256 := by
      intro b hbm; exact hb b (by simp [hbm])
    have d1 : b64Index (b64Char (b1 / 4)) = some (b1 / 4) := b64Index_b64Char _ (by omega)
    have d2 : b64Index (b64Char (b1 % 4 * 16 + b2 / 16)) = some (b1 % 4 * 16 + b2 / 16) :=
      b64Index_b64Char _ (by omega)
    have d3 : b64Index (b64Char (b2 % 16 * 4 + b3 / 64)) = some (b2 % 16 * 4 + b3 / 64) :=
      b64Index_b64Char _ (by omega)
    have d4 : b64Index (b64Char (b3 % 64)) = some (b3 % 64) := b64Index_b64Char _ (by omega)
    simp only [b64encode, b64decode, d1, d2, d3, d4,
      if_neg (b64Char_ne_pad (b2 % 16 * 4 + b3 / 64)), if_neg (b64Char_ne_pad (b3 % 64)),
      ih hrest]
    simp
    omega

/-- Witness for C1 at a concrete byte list. -/
theorem encode_file_b64_roundtrip_witness :
    (∀ b ∈ [77, 3, 255, 0, 128], b < 256) ∧
      b64decode (encode_file_b64 [77, 3, 255, 0, 128]) = some [77, 3, 255, 0, 128] :=
  ⟨by decide, encode_file_b64_roundtrip [77, 3, 255, 0, 128] (by decide)⟩

/-! ## Python string primitives (str.replace / re.sub on the script's patterns) -/

/-- Number of (possibly overlapping) start positions where pat occurs. -/
def countOccur (pat : List Char) : List Char → Nat
  | [] => 0
  | c :: rest => (if pat.isPrefixOf (c :: rest) then 1 else 0) + countOccur pat rest

/-- Whether pat occurs somewhere in the string. -/
def containsSub (pat : List Char) : List Char → Bool
  | [] => pat.isEmpty
  | c :: rest => pat.isPrefixOf (c :: rest) || containsSub pat rest

/-- Index of the first occurrence of a character. -/
def findChar (ch : Char) : List Char → Option Nat
  | [] => none
  | c :: rest => if c = ch then some 0 else (findChar ch rest).map (fun j => j + 1)

/-- Start index of the first occurrence of pat. -/
def findSub (pat : List Char) : List Char → Option Nat
  | [] => if pat.isEmpty then some 0 else none
  | c :: rest =>
    if pat.isPrefixOf (c :: rest) then some 0 else (findSub pat rest).map (fun j => j + 1)

/-- Matcher of a literal string (str.replace): fires iff the literal starts here,
match length is the literal's length. -/
def litMatch (lit : List Char) (s : List Char) : Option Nat :=
  if lit.isPrefixOf s then some lit.length else none

/-- The script's pattern  <object[^>]*data="NAME"[^>]*>.*?</object>  (with
re.DOTALL) matched at the start of s.  Both [^>]* pieces together span
exactly the characters up to the first '>' after "<object", the literal
data="NAME" must occur inside that span, and the non-greedy .*? runs to the
first following "</object>".  Returns the match length. -/
def objMatchAt (name : List Char) (s : List Char) : Option Nat :=
  if ( "<object".data).isPrefixOf s then
    match findChar '>' (s.drop 7) with
    | none => none
    | some j =>
      if containsSub ( "data=\"".data ++ name ++ [ '\"' ]) ((s.drop 7).take j) then
        match findSub ( "</object>".data) ((s.drop 7).drop (j + 1)) with
        | none => none
        | some k => some (7 + j + 1 + k + 9)
      else none
  else none

/-- Global leftmost substitution (Python str.replace and re.sub on the
script's patterns): scan left to right, at a match emit the replacement and
resume right after the matched text.  The script's patterns never match the
empty string; max n 1 is only fuel bookkeeping.  Fuel: the string length. -/
def subScanF (f : List Char → Option Nat) (repl : List Char) : Nat → List Char → List Char
  | _, [] => []
  | 0, s => s
  | fuel + 1, c :: rest =>
    match f (c :: rest) with
    | some n => repl ++ subScanF f repl fuel (List.drop (max n 1) (c :: rest))
    | none => c :: subScanF f repl fuel rest

def subScan (f : List Char → Option Nat) (repl : List Char) (s : List Char) : List Char :=
  subScanF f repl s.length s

/-- Decomposition of the scan of subScanF: kept single characters (false)
and matched segments (true), in order. -/
def subPiecesF (f : List Char → Option Nat) : Nat → List Char → List (Bool × List Char)
  | _, [] => []
  | 0, s => [(false, s)]
  | fuel + 1, c :: rest =>
    match f (c :: rest) with
    | some n =>
        (true, List.take (max n 1) (c :: rest)) ::
          subPiecesF f fuel (List.drop (max n 1) (c :: rest))
    | none => (false, [c]) :: subPiecesF f fuel rest

def subPieces (f : List Char → Option Nat) (s : List Char) : List (Bool × List Char) :=
  subPiecesF f s.length s

/-- Reassemble pieces, substituting repl for each matched piece. -/
def joinWith (repl : List Char) : List (Bool × List Char) → List Char
  | [] => []
  | p :: ps => (if p.1 then repl else p.2) ++ joinWith repl ps

/-- Reassemble pieces with their original text. -/
def joinOrig : List (Bool × List Char) → List Char
  | [] => []
  | p :: ps => p.2 ++ joinOrig ps

/-- Does the matcher fire at any position of s? -/
def hasMatch (f : List Char → Option Nat) : List Char → Bool
  | [] => false
  | c :: rest => (f (c :: rest)).isSome || hasMatch f rest

/-! ## The script's constants and template assembly (main, lines 61-126) -/

def photo_file : List Char := "26.jpg.jpeg".data

def html_template : List Char := "credenciales.html".data

def pdf_files : List (List Char) :=
  [ "T1.pdf".data, "tp1.pdf".data, "T2.pdf".data, "tp2.pdf".data]

/-- The photo reference literal  src="FILE"  replaced in the template. -/
def srcLit (f : List Char) : List Char := "src=\"".data ++ f ++ [ '\"' ]

/-- Its replacement  src="data:image/jpeg;base64,B64". -/
def photoDataURI (pb : List Char) : List Char :=
  "src=\"data:image/jpeg;base64,".data ++ pb ++ [ '\"' ]

/-- main lines 109-112: html.replace on the photo src literal. -/
def photoStep (pb : List Char) (html : List Char) : List Char :=
  subScan (litMatch (srcLit photo_file)) (photoDataURI pb) html

/-- main lines 96-100: the img tag for page i (0-based; alt shows i+1). -/
def imgTag (i : Nat) (b64 : List Char) : List Char :=
  "<img src=\"data:image/png;base64,".data ++ b64 ++ "\" alt=\"Pagina ".data
    ++ (Nat.repr (i + 1)).data
    ++ "\" style=\"width:100%;display:block;margin:0;padding:0;\">".data

/-- Python '\n'.join. -/
def joinNL : List (List Char) → List Char
  | [] => []
  | [x] => x
  | x :: y :: rest => x ++ '\n' :: joinNL (y :: rest)

/-- main lines 94-101: the HTML fragment for one PDF's page images. -/
def pdfSection (images : List (List Char)) : List Char :=
  joinNL ((images.enum).map (fun p => imgTag p.1 p.2))

/-- main lines 115-121: re.sub of one PDF's object placeholder pattern. -/
def pdfStep (name : List Char) (frag : List Char) (html : List Char) : List Char :=
  subScan (objMatchAt name) frag html

/-- main lines 108-121: photo replacement, then the four PDF substitutions
in the order of pdf_files. -/
def assemble (pb : List Char) (sections : List Char → List Char) (html : List Char) : List Char :=
  pdf_files.foldl (fun h n => pdfStep n (sections n) h) (photoStep pb html)

/-! ## PDF rasterization (PyMuPDF, modelled abstractly) and main -/

/-- Modelled from the spec: a PyMuPDF page carries a current rotation and
abstract content; get_pixmap with the dpi/72 zoom matrix followed by
tobytes("png") yields PNG bytes determined by the content, the page's
current rotation and the dpi.  The content is the renderPNG function:
rotation and dpi to PNG bytes. -/
structure Page where
  rotation : Nat
  renderPNG : Nat → Nat → List Nat

/-- page.set_rotation. -/
def set_rotation (p : Page) (r : Nat) : Page := { p with rotation := r }

/-- Loop body of pdf_to_images_b64 (lines 48-55): optional 90 degree
clockwise rotation, rasterize at dpi, PNG-encode, base64-encode. -/
def processPage (rotate_cw : Bool) (dpi : Nat) (p : Page) : List Char :=
  let q := if rotate_cw then set_rotation p ((p.rotation + 90) % 360) else p
  b64encode (q.renderPNG q.rotation dpi)

/-- pdf_to_images_b64 (lines 40-58): each page of the document, in document
order. -/
def pdf_to_images_b64 (doc : List Page) (dpi : Nat) (rotate_cw : Bool) : List (List Char) :=
  match doc with
  | [] => []
  | p :: ps => processPage rotate_cw dpi p :: pdf_to_images_b64 ps dpi rotate_cw

/-- The filesystem / PDF-library environment main runs against. -/
structure Env where
  fileExists : List Char → Bool
  fileBytes : List Char → List Nat
  pdfPages : List Char → List Page
  fileText : List Char → List Char

/-- Observable outcome of a run: nonzero exit after printing the missing
list, or the output file written with its content. -/
inductive Outcome where
  | exited (code : Nat) (missing : List (List Char))
  | wrote (file : List Char) (content : List Char)
deriving DecidableEq

/-- rotate_map = {'T2.pdf': True} with .get default False (lines 86-91). -/
def rotate_map (name : List Char) : Bool := name == "T2.pdf".data

/-- required = [photo_file, html_template] + pdf_files (line 71). -/
def requiredFiles : List (List Char) := photo_file :: html_template :: pdf_files

/-- main (lines 61-126): check required files, else convert and write
index.html.  Progress printing and os.chdir are not observable here.
(Lean reserves the name main for entry points, hence mainScript.) -/
def mainScript (env : Env) : Outcome :=
  let missing := requiredFiles.filter (fun f => !(env.fileExists f))
  if missing.isEmpty then
    let photo_b64 := encode_file_b64 (env.fileBytes photo_file)
    let sections := fun name =>
      pdfSection (pdf_to_images_b64 (env.pdfPages name) 200 (rotate_map name))
    Outcome.wrote ( "index.html".data) (assemble photo_b64 sections (env.fileText html_template))
  else Outcome.exited 1 missing

/-! ## Generic facts about the substitution scan -/

/-- Reassembling the scan's pieces with their original text gives back the
input string: the scan partitions the input. -/
theorem joinOrig_subPiecesF (f : List Char → Option Nat) :
    ∀ fuel s, joinOrig (subPiecesF f fuel s) = s := by
  intro fuel
  induction fuel with
  | zero =>
    intro s
    cases s with
    | nil => simp [subPiecesF, joinOrig]
    | cons c rest => simp [subPiecesF, joinOrig]
  | succ fuel ih =>
    intro s
    cases s with
    | nil => simp [subPiecesF, joinOrig]
    | cons c rest =>
      simp only [subPiecesF]
      cases h : f (c :: rest) with
      | none => simp [joinOrig, ih rest]
      | some n =>
        simp only [joinOrig, ih (List.drop (max n 1) (c :: rest)), List.take_append_drop]

/-- The scan's output is the pieces reassembled with the replacement put in
place of every matched piece. -/
theorem subScanF_eq_joinWith (f : List Char → Option Nat) (repl : List Char) :
    ∀ fuel s, subScanF f repl fuel s = joinWith repl (subPiecesF f fuel s) := by
  intro fuel
  induction fuel with
  | zero =>
    intro s
    cases s with
    | nil => simp [subScanF, subPiecesF, joinWith]
    | cons c rest => simp [subScanF, subPiecesF, joinWith]
  | succ fuel ih =>
    intro s
    cases s with
    | nil => simp [subScanF, subPiecesF, joinWith]
    | cons c rest =>
      simp only [subScanF, subPiecesF]
      cases h : f (c :: rest) with
      | none => simp [joinWith, ih rest]
      | some n => simp [joinWith, ih (List.drop (max n 1) (c :: rest))]

/-- Every matched piece of the scan satisfies any property that the matcher
guarantees of its matched prefixes. -/
theorem subPiecesF_matched (f : List Char → Option Nat) (P : List Char → Prop)
    (hP : ∀ s n, f s = some n → P (s.take (max n 1))) :
    ∀ fuel s p, p ∈ subPiecesF f fuel s → p.1 = true → P p.2 := by
  intro fuel
  induction fuel with
  | zero =>
    intro s p hp ht
    cases s with
    | nil => simp [subPiecesF] at hp
    | cons c rest =>
      simp only [subPiecesF, List.mem_singleton] at hp
      rw [hp] at ht
      simp at ht
  | succ fuel ih =>
    intro s p hp ht
    cases s with
    | nil => simp [subPiecesF] at hp
    | cons c rest =>
      simp only [subPiecesF] at hp
      cases h : f (c :: rest) with
      | none =>
        rw [h] at hp
        simp only [List.mem_cons] at hp
        rcases hp with hp | hp
        · rw [hp] at ht; simp at ht
        · exact ih rest p hp ht
      | some n =>
        rw [h] at hp
        simp only [List.mem_cons] at hp
        rcases hp with hp | hp
        · rw [hp]; exact hP (c :: rest) n h
        · exact ih (List.drop (max n 1) (c :: rest)) p hp ht

/-- If the matcher fires nowhere, the substitution is the identity. -/
theorem subScanF_of_no_match (f : List Char → Option Nat) (repl : List Char) :
    ∀ fuel s, hasMatch f s = false → subScanF f repl fuel s = s := by
  intro fuel
  induction fuel with
  | zero =>
    intro s hm
    cases s with
    | nil => simp [subScanF]
    | cons c rest => simp [subScanF]
  | succ fuel ih =>
    intro s hm
    cases s with
    | nil => simp [subScanF]
    | cons c rest =>
      simp only [hasMatch, Bool.or_eq_false_iff] at hm
      obtain ⟨h1, h2⟩ := hm
      simp only [subScanF]
      cases h : f (c :: rest) with
      | none => simp [ih rest h2]
      | some n => rw [h] at h1; simp at h1

/-- If the matcher fires somewhere, the replacement text appears verbatim in
the output. -/
theorem subScanF_contains_repl (f : List Char → Option Nat) (repl : List Char) :
    ∀ fuel s, s.length ≤ fuel → hasMatch f s = true →
      ∃ u v, subScanF f repl fuel s = u ++ repl ++ v := by
  intro fuel
  induction fuel with
  | zero =>
    intro s hlen hm
    have : s = [] := List.length_eq_zero.mp (Nat.le_zero.mp hlen)
    rw [this] at hm
    simp [hasMatch] at hm
  | succ fuel ih =>
    intro s hlen hm
    cases s with
    | nil => simp [hasMatch] at hm
    | cons c rest =>
      simp only [subScanF]
      cases h : f (c :: rest) with
      | some n =>
        exact ⟨[], subScanF f repl fuel (List.drop (max n 1) (c :: rest)), by simp⟩
      | none =>
        have hm2 : hasMatch f rest = true := by
          simp only [hasMatch, h, Option.isSome_none, Bool.false_or] at hm
          exact hm
        have hlen2 : rest.length ≤ fuel := by
          simp only [List.length_cons] at hlen; omega
        obtain ⟨u, v, hu⟩ := ih rest hlen2 hm2
        exact ⟨c :: u, v, by simp [hu]⟩

/-! ## Properties of the literal matcher -/

/-- A matched piece of the literal matcher is the literal itself. -/
theorem litMatch_take (lit s : List Char) (hne : lit ≠ []) (n : Nat)
    (h : litMatch lit s = some n) : s.take (max n 1) = lit := by
  unfold litMatch at h
  split at h
  case isTrue hpre =>
    have hn : n = lit.length := by
      have := Option.some.inj h
      omega
    have hp : lit <+: s := List.isPrefixOf_iff_prefix.mp hpre
    have hlen : 1 ≤ lit.length := by
      cases lit with
      | nil => exact absurd rfl hne
      | cons a l => simp
    rw [hn, Nat.max_eq_left hlen]
    obtain ⟨t, ht⟩ := hp
    rw [← ht, List.take_left]
  case isFalse hpre => exact absurd h (by simp)

/-- The literal matcher fires somewhere iff the literal occurs. -/
theorem hasMatch_litMatch (lit : List Char) (hne : lit ≠ []) :
    ∀ s, hasMatch (litMatch lit) s = containsSub lit s := by
  intro s
  induction s with
  | nil =>
    simp only [hasMatch, containsSub, List.isEmpty_iff]
    simp [hne]
  | cons c rest ih =>
    simp only [hasMatch, containsSub, ih, litMatch]
    congr 1
    split
    case isTrue hpre => simp [hpre]
    case isFalse hpre => simp [hpre]

/-! ## Properties of findChar and findSub -/

theorem findChar_lt (ch : Char) : ∀ l j, findChar ch l = some j → j < l.length := by
  intro l
  induction l with
  | nil => intro j h; simp [findChar] at h
  | cons c rest ih =>
    intro j h
    simp only [findChar] at h
    split at h
    · have := Option.some.inj h
      simp [← this]
    · cases hj : findChar ch rest with
      | none => rw [hj] at h; simp at h
      | some j0 =>
        rw [hj] at h
        simp only [Option.map_some'] at h
        have := Option.some.inj h
        have := ih j0 hj
        simp only [List.length_cons]
        omega

theorem findChar_take (ch : Char) :
    ∀ l j m, findChar ch l = some j → j < m → findChar ch (l.take m) = some j := by
  intro l
  induction l with
  | nil => intro j m h _; simp [findChar] at h
  | cons c rest ih =>
    intro j m h hjm
    cases m with
    | zero => omega
    | succ m0 =>
      simp only [List.take_succ_cons, findChar]
      simp only [findChar] at h
      split at h
      case isTrue hc => rw [if_pos hc]; exact h
      case isFalse hc =>
        rw [if_neg hc]
        cases hj : findChar ch rest with
        | none => rw [hj] at h; simp at h
        | some j0 =>
          rw [hj] at h
          simp only [Option.map_some'] at h
          have hjj : j0 + 1 = j := Option.some.inj h
          rw [ih j0 m0 hj (by omega)]
          simp [hjj]

theorem findSub_isPrefix (pat : List Char) :
    ∀ l k, findSub pat l = some k → pat <+: l.drop k := by
  intro l
  induction l with
  | nil =>
    intro k h
    simp only [findSub] at h
    split at h
    case isTrue hp =>
      have hk : k = 0 := by
        have := Option.some.inj h
        omega
      have hpe : pat = [] := by
        cases pat with
        | nil => rfl
        | cons a t => simp at hp
      simp [hk, hpe]
    case isFalse hp => exact absurd h (by simp)
  | cons c rest ih =>
    intro k h
    simp only [findSub] at h
    split at h
    case isTrue hp =>
      have hk : k = 0 := by
        have := Option.some.inj h
        omega
      rw [hk]
      exact List.isPrefixOf_iff_prefix.mp hp
    case isFalse hp =>
      cases hj : findSub pat rest with
      | none => rw [hj] at h; simp at h
      | some k0 =>
        rw [hj] at h
        simp only [Option.map_some'] at h
        have hk : k0 + 1 = k := Option.some.inj h
        rw [← hk]
        simpa using ih k0 hj

theorem findSub_self (pat : List Char) (hne : pat ≠ []) : findSub pat pat = some 0 := by
  cases pat with
  | nil => exact absurd rfl hne
  | cons a t =>
    simp only [findSub]
    rw [if_pos (List.isPrefixOf_iff_prefix.mpr (List.prefix_refl _))]

theorem findSub_take (pat : List Char) (hne : pat ≠ []) :
    ∀ l k, findSub pat l = some k →
      findSub pat (List.take (k + pat.length) l) = some k := by
  intro l
  induction l with
  | nil =>
    intro k h
    simp only [findSub] at h
    rw [if_neg (by simp [hne])] at h
    exact absurd h (by simp)
  | cons c rest ih =>
    intro k h
    simp only [findSub] at h
    split at h
    case isTrue hp =>
      have hk : k = 0 := by
        have := Option.some.inj h
        omega
      subst hk
      have hp2 : pat <+: (c :: rest) := List.isPrefixOf_iff_prefix.mp hp
      have hpe : List.take pat.length (c :: rest) = pat := by
        obtain ⟨t, ht⟩ := hp2
        rw [← ht, List.take_left]
      rw [Nat.zero_add, hpe]
      exact findSub_self pat hne
    case isFalse hp =>
      cases hj : findSub pat rest with
      | none => rw [hj] at h; simp at h
      | some k0 =>
        rw [hj] at h
        simp only [Option.map_some'] at h
        have hk : k0 + 1 = k := Option.some.inj h
        rw [← hk]
        have htk : List.take (k0 + 1 + pat.length) (c :: rest)
            = c :: List.take (k0 + pat.length) rest := by
          have : k0 + 1 + pat.length = (k0 + pat.length) + 1 := by omega
          rw [this, List.take_succ_cons]
        rw [htk]
        simp only [findSub]
        rw [if_neg]
        · rw [ih k0 hj]
          simp
        · intro hcon
          apply hp
          have h1 : pat <+: c :: List.take (k0 + pat.length) rest :=
            List.isPrefixOf_iff_prefix.mp hcon
          have h2 : (c :: List.take (k0 + pat.length) rest) <+: (c :: rest) := by
            rw [ List.cons_prefix_cons]
            exact ⟨rfl, List.take_prefix _ _⟩
          exact List.isPrefixOf_iff_prefix.mpr (h1.trans h2)

/-! ## Properties of the object-pattern matcher -/

/-- Destructuring of a successful object-pattern match. -/
theorem objMatchAt_elim (name s : List Char) (n : Nat) (h : objMatchAt name s = some n) :
    ∃ j k, ( "<object".data).isPrefixOf s = true ∧
      findChar '>' (s.drop 7) = some j ∧
      containsSub ( "data=\"".data ++ name ++ [ '\"' ]) ((s.drop 7).take j) = true ∧
      findSub ( "</object>".data) ((s.drop 7).drop (j + 1)) = some k ∧
      n = 7 + j + 1 + k + 9 := by
  unfold objMatchAt at h
  split at h
  case isTrue hpre =>
    cases hj : findChar '>' (s.drop 7) with
    | none => rw [hj] at h; simp at h
    | some j =>
      rw [hj] at h
      simp only at h
      split at h
      case isTrue hc =>
        cases hk : findSub ( "</object>".data) ((s.drop 7).drop (j + 1)) with
        | none => rw [hk] at h; simp at h
        | some k =>
          rw [hk] at h
          simp only at h
          exact ⟨j, k, hpre, rfl, hc, hk, (Option.some.inj h).symm⟩
      case isFalse hc => exact absurd h (by simp)
  case isFalse hpre => exact absurd h (by simp)

/-- A successful object match is nonempty and fits inside the string. -/
theorem objMatchAt_bounds (name s : List Char) (n : Nat)
    (h : objMatchAt name s = some n) : 1 ≤ n ∧ n ≤ s.length := by
  obtain ⟨j, k, hpre, hj, hc, hk, hn⟩ := objMatchAt_elim name s n h
  have hjl : j < (s.drop 7).length := findChar_lt '>' _ j hj
  have hkp : ( "</object>".data) <+: ((s.drop 7).drop (j + 1)).drop k :=
    findSub_isPrefix _ _ k hk
  have hkl : 9 ≤ (((s.drop 7).drop (j + 1)).drop k).length := by
    have := hkp.length_le
    simpa using this
  simp only [List.length_drop] at hjl hkl
  omega

/-- Self-containedness: the matched text itself matches, with full length.
This is what makes a matched piece of the scan a real placeholder match. -/
theorem objMatchAt_take (name s : List Char) (n : Nat)
    (h : objMatchAt name s = some n) : objMatchAt name (s.take n) = some n := by
  obtain ⟨j, k, hpre, hj, hc, hk, hn⟩ := objMatchAt_elim name s n h
  have hjl : j < (s.drop 7).length := findChar_lt '>' _ j hj
  have hbounds := objMatchAt_bounds name s n h
  -- the drop-7 part of the truncation
  have hdrop : (s.take n).drop 7 = (s.drop 7).take (n - 7) := by
    rw [ List.drop_take]
  have hpre2 : ( "<object".data).isPrefixOf (s.take n) = true := by
    have hp : ( "<object".data) <+: s := List.isPrefixOf_iff_prefix.mp hpre
    apply List.isPrefixOf_iff_prefix.mpr
    obtain ⟨t, ht⟩ := hp
    have h7 : List.take 7 (s.take n) = ( "<object".data) := by
      rw [ List.take_take]
      have hmin : min 7 n = 7 := by omega
      rw [hmin, ← ht, List.take_left']
      decide
    exact ⟨(s.take n).drop 7, by rw [← h7, List.take_append_drop]⟩
  unfold objMatchAt
  rw [if_pos hpre2, hdrop]
  have hj2 : findChar '>' ((s.drop 7).take (n - 7)) = some j :=
    findChar_take '>' _ j (n - 7) hj (by omega)
  rw [hj2]
  simp only
  have hrun : ((s.drop 7).take (n - 7)).take j = (s.drop 7).take j := by
    rw [ List.take_take]
    have : min j (n - 7) = j := by omega
    rw [this]
  rw [hrun, if_pos hc]
  have hdrop2 : ((s.drop 7).take (n - 7)).drop (j + 1)
      = ((s.drop 7).drop (j + 1)).take (k + 9) := by
    rw [ List.drop_take]
    have : n - 7 - (j + 1) = k + 9 := by omega
    rw [this]
  rw [hdrop2]
  have hk2 : findSub ( "</object>".data) (((s.drop 7).drop (j + 1)).take (k + 9)) = some k := by
    have h9l : ( "</object>".data).length = 9 := by decide
    rw [← h9l]
    exact findSub_take _ (by decide) _ k hk
  rw [hk2]
  simp [hn]

/-! ## Claim C2: page count and page order of the rasterizer -/

/-- C2: for a document with N pages, pdf_to_images_b64 returns exactly N
base64 strings, and the i-th string is the base64 PNG rendering of the i-th
page (page order preserved). -/
theorem pdf_to_images_b64_pages (doc : List Page) (dpi : Nat) (rotate_cw : Bool) :
    (pdf_to_images_b64 doc dpi rotate_cw).length = doc.length ∧
    ∀ i, i < doc.length →
      (pdf_to_images_b64 doc dpi rotate_cw).getD i []
        = processPage rotate_cw dpi (doc.getD i ⟨0, fun _ _ => []⟩) := by
  induction doc with
  | nil => exact ⟨rfl, fun i hi => by simp at hi⟩
  | cons p ps ih =>
    constructor
    · simp only [pdf_to_images_b64, List.length_cons]
      exact congrArg (fun m => m + 1) ih.1
    · intro i hi
      cases i with
      | zero => simp [pdf_to_images_b64]
      | succ i0 =>
        simp only [pdf_to_images_b64, List.getD_cons_succ]
        exact ih.2 i0 (by simp at hi; omega)

/-- Witness for C2: a concrete one-page document. -/
theorem pdf_to_images_b64_pages_witness :
    (0 < ([⟨0, fun _ _ => [1, 2, 3]⟩] : List Page).length) ∧
      (pdf_to_images_b64 [⟨0, fun _ _ => [1, 2, 3]⟩] 200 false).getD 0 []
        = processPage false 200
            (([⟨0, fun _ _ => [1, 2, 3]⟩] : List Page).getD 0 ⟨0, fun _ _ => []⟩) :=
  ⟨by simp, (pdf_to_images_b64_pages [⟨0, fun _ _ => [1, 2, 3]⟩] 200 false).2 0 (by simp)⟩

/-! ## Claim C3: the 90-degree rotation flag -/

/-- The rotation operation of line 50: set_rotation((rotation + 90) % 360). -/
def rotateStep (p : Page) : Page := set_rotation p ((p.rotation + 90) % 360)

/-- C3: with the rotation flag, a page renders as if its rotation were
(R+90) mod 360; applying the rotation operation twice yields rotation
(R+180) mod 360. -/
theorem rotation_compounds (p : Page) (dpi : Nat) :
    processPage true dpi p = processPage false dpi (rotateStep p) ∧
      (rotateStep (rotateStep p)).rotation = (p.rotation + 180) % 360 := by
  constructor
  · simp [processPage, rotateStep]
  · simp only [rotateStep, set_rotation]
    omega

/-! ## Claim C5: missing required input files -/

/-- C5: if any required input file is absent, the run exits with code 1
carrying the (nonempty) list of missing files, and no output file is
written. -/
theorem mainScript_missing_input (env : Env) (f : List Char)
    (hf : f ∈ requiredFiles) (hmiss : env.fileExists f = false) :
    mainScript env
        = Outcome.exited 1 (requiredFiles.filter (fun g => !(env.fileExists g))) ∧
      requiredFiles.filter (fun g => !(env.fileExists g)) ≠ [] ∧
      ∀ name content, mainScript env ≠ Outcome.wrote name content := by
  have hmem : f ∈ requiredFiles.filter (fun g => !(env.fileExists g)) := by
    rw [ List.mem_filter]
    exact ⟨hf, by simp [hmiss]⟩
  have hne : requiredFiles.filter (fun g => !(env.fileExists g)) ≠ [] := by
    intro h0
    rw [h0] at hmem
    simp at hmem
  have hie : ¬ ((requiredFiles.filter (fun g => !(env.fileExists g))).isEmpty = true) := by
    simp only [List.isEmpty_iff]
    exact hne
  refine ⟨?_, hne, ?_⟩
  · simp only [mainScript]
    rw [if_neg hie]
  · intro name content
    simp only [mainScript]
    rw [if_neg hie]
    simp

/-- Witness for C5: an environment in which no file exists. -/
theorem mainScript_missing_input_witness :
    photo_file ∈ requiredFiles ∧
      (Env.mk (fun _ => false) (fun _ => []) (fun _ => []) (fun _ => [])).fileExists photo_file
        = false ∧
      (mainScript (Env.mk (fun _ => false) (fun _ => []) (fun _ => []) (fun _ => []))
          = Outcome.exited 1 (requiredFiles.filter (fun g =>
              !((Env.mk (fun _ => false) (fun _ => []) (fun _ => []) (fun _ => [])).fileExists g))) ∧
        requiredFiles.filter (fun g =>
            !((Env.mk (fun _ => false) (fun _ => []) (fun _ => []) (fun _ => [])).fileExists g))
          ≠ [] ∧
        ∀ name content,
          mainScript (Env.mk (fun _ => false) (fun _ => []) (fun _ => []) (fun _ => []))
            ≠ Outcome.wrote name content) :=
  ⟨by simp [requiredFiles], rfl,
    mainScript_missing_input _ photo_file (by simp [requiredFiles]) rfl⟩

/-! ## Claim C8: absent placeholder patterns are silently left alone -/

/-- C8: if the photo literal (resp. a PDF's object pattern) matches nowhere
in the template, the corresponding substitution returns the template
unchanged. -/
theorem absent_placeholder_noop :
    (∀ pb html, hasMatch (litMatch (srcLit photo_file)) html = false →
        photoStep pb html = html) ∧
    (∀ name frag html, hasMatch (objMatchAt name) html = false →
        pdfStep name frag html = html) := by
  constructor
  · intro pb html h
    exact subScanF_of_no_match _ _ _ html h
  · intro name frag html h
    exact subScanF_of_no_match _ _ _ html h

/-- Witness for C8 on a template with no placeholder. -/
theorem absent_placeholder_noop_witness :
    hasMatch (litMatch (srcLit photo_file)) ( "hello".data) = false ∧
      photoStep ( "B64".data) ( "hello".data) = ( "hello".data) ∧
      hasMatch (objMatchAt ( "T1.pdf".data)) ( "hello".data) = false ∧
      pdfStep ( "T1.pdf".data) ( "FRAG".data) ( "hello".data) = ( "hello".data) :=
  ⟨by decide, absent_placeholder_noop.1 ( "B64".data) ( "hello".data) (by decide),
    by decide, absent_placeholder_noop.2 ( "T1.pdf".data) ( "FRAG".data) ( "hello".data)
      (by decide)⟩

/-! ## Counting occurrences; the C6 scenario -/

/-- If the match covers the whole string, the substitution is exactly the
replacement. -/
theorem subScan_full_match (f : List Char → Option Nat) (repl s : List Char) (n : Nat)
    (hf : f s = some n) (hn : n = s.length) (h1 : 1 ≤ n) :
    subScan f repl s = repl := by
  cases s with
  | nil => rw [hn] at h1; simp at h1
  | cons c rest =>
    unfold subScan
    simp only [List.length_cons, subScanF]
    rw [hf]
    have hmax : max n 1 = n := by omega
    have hdrop : List.drop (max n 1) (c :: rest) = [] := by
      rw [hmax, hn]
      have hlc : (c :: rest).length = rest.length + 1 := by simp
      rw [hlc, ← List.length_cons c rest, List.drop_length]
    change repl ++ subScanF f repl rest.length (List.drop (max n 1) (c :: rest)) = repl
    rw [hdrop]
    simp [subScanF]

theorem countOccur_zero_of_no_head (hc : Char) (pt : List Char) :
    ∀ s, (∀ c ∈ s, c ≠ hc) → countOccur (hc :: pt) s = 0 := by
  intro s
  induction s with
  | nil => intro _; simp [countOccur]
  | cons c rest ih =>
    intro hs
    simp only [countOccur]
    rw [if_neg, ih (fun d hm => hs d (List.mem_cons_of_mem _ hm))]
    intro hp
    have hpre := List.isPrefixOf_iff_prefix.mp hp
    have hcc := (List.cons_prefix_cons.mp hpre).1
    exact hs c (List.mem_cons_self c rest) hcc.symm

theorem countOccur_head_once (hc : Char) (pt tail : List Char)
    (hpre : (hc :: pt).isPrefixOf (hc :: tail) = true)
    (htail : ∀ c ∈ tail, c ≠ hc) : countOccur (hc :: pt) (hc :: tail) = 1 := by
  simp only [countOccur]
  rw [if_pos hpre, countOccur_zero_of_no_head hc pt tail htail]

theorem countOccur_head_mismatch (hc : Char) (pt tail : List Char)
    (hpre : (hc :: pt).isPrefixOf (hc :: tail) = false)
    (htail : ∀ c ∈ tail, c ≠ hc) : countOccur (hc :: pt) (hc :: tail) = 0 := by
  simp only [countOccur]
  rw [if_neg, countOccur_zero_of_no_head hc pt tail htail]
  simp [hpre]

theorem isPrefixOf_append_left (p a x : List Char) (h : p.isPrefixOf a = true) :
    p.isPrefixOf (a ++ x) = true :=
  List.isPrefixOf_iff_prefix.mpr
    ((List.isPrefixOf_iff_prefix.mp h).trans (List.prefix_append a x))

/-- C6: for a 1-page PDF named A.pdf (arbitrary page bytes) and the template
<object data="A.pdf">x</object>, the assembled output has exactly one img
tag, its src begins with the png data URI prefix, and no literal <object
remains. -/
theorem object_inline_scenario (png : List Nat) :
    countOccur ( "<img".data)
        (pdfStep ( "A.pdf".data) (pdfSection [b64encode png])
          ( "<object data=\"A.pdf\">x</object>".data)) = 1 ∧
      ( "<img src=\"data:image/png;base64,".data) <+:
        (pdfStep ( "A.pdf".data) (pdfSection [b64encode png])
          ( "<object data=\"A.pdf\">x</object>".data)) ∧
      countOccur ( "<object".data)
        (pdfStep ( "A.pdf".data) (pdfSection [b64encode png])
          ( "<object data=\"A.pdf\">x</object>".data)) = 0 := by
  have hm : objMatchAt ( "A.pdf".data) ( "<object data=\"A.pdf\">x</object>".data)
      = some 31 := by decide
  have hout : pdfStep ( "A.pdf".data) (pdfSection [b64encode png])
      ( "<object data=\"A.pdf\">x</object>".data) = pdfSection [b64encode png] :=
    subScan_full_match _ _ _ 31 hm (by decide) (by decide)
  have hsec : pdfSection [b64encode png] = imgTag 0 (b64encode png) := rfl
  -- normal form of the img tag: a '<' followed by a '<'-free tail
  have hBCD : ( "\" alt=\"Pagina ".data) ++ (((Nat.repr (0 + 1)).data) ++
        ( "\" style=\"width:100%;display:block;margin:0;padding:0;\">".data))
      = ( "\" alt=\"Pagina 1\" style=\"width:100%;display:block;margin:0;padding:0;\">".data) := by
    decide
  have hform : imgTag 0 (b64encode png)
      = ( "<img src=\"data:image/png;base64,".data) ++ ((b64encode png) ++
          ( "\" alt=\"Pagina 1\" style=\"width:100%;display:block;margin:0;padding:0;\">".data)) := by
    unfold imgTag
    simp only [List.append_assoc]
    rw [hBCD]
  have hA : ( "<img src=\"data:image/png;base64,".data)
      = '<' :: ( "img src=\"data:image/png;base64,".data) := by decide
  have hshape : imgTag 0 (b64encode png)
      = '<' :: (( "img src=\"data:image/png;base64,".data) ++ ((b64encode png) ++
          ( "\" alt=\"Pagina 1\" style=\"width:100%;display:block;margin:0;padding:0;\">".data))) := by
    rw [hform, hA, List.cons_append]
  have htail : ∀ c ∈ (( "img src=\"data:image/png;base64,".data) ++ ((b64encode png) ++
        ( "\" alt=\"Pagina 1\" style=\"width:100%;display:block;margin:0;padding:0;\">".data))),
      c ≠ '<' := by
    intro c hc
    simp only [List.mem_append] at hc
    rcases hc with hc | hc | hc
    · revert hc; revert c; decide
    · exact b64encode_no_lt png c hc
    · revert hc; revert c; decide
  rw [hout, hsec]
  refine ⟨?_, ?_, ?_⟩
  · have hImg : ( "<img".data) = '<' :: ( "img".data) := by decide
    rw [hImg, hshape]
    apply countOccur_head_once _ _ _ _ htail
    apply List.isPrefixOf_iff_prefix.mpr
    rw [ List.cons_prefix_cons]
    refine ⟨rfl, ?_⟩
    have h1 : ( "img".data) <+: ( "img src=\"data:image/png;base64,".data) := by
      apply List.isPrefixOf_iff_prefix.mp
      decide
    exact h1.trans (List.prefix_append _ _)
  · rw [hform]
    exact List.prefix_append _ _
  · have hObj : ( "<object".data) = '<' :: ( "object".data) := by decide
    rw [hObj, hshape]
    apply countOccur_head_mismatch _ _ _ _ htail
    rw [ Bool.eq_false_iff]
    intro hcon
    have hp := List.isPrefixOf_iff_prefix.mp hcon
    rw [ List.cons_prefix_cons] at hp
    obtain ⟨-, hp2⟩ := hp
    have hAi : ( "img src=\"data:image/png;base64,".data)
        = 'i' :: ( "mg src=\"data:image/png;base64,".data) := by decide
    rw [hAi, List.cons_append] at hp2
    have hO : ( "object".data) = 'o' :: ( "bject".data) := by decide
    rw [hO, List.cons_prefix_cons] at hp2
    exact absurd hp2.1 (by decide)

/-! ## Claim C7: inlining the photo -/

theorem containsSub_of_isPrefixOf (p : List Char) :
    ∀ s, p.isPrefixOf s = true → containsSub p s = true := by
  intro s
  cases s with
  | nil =>
    intro h
    have : p <+: [] := List.isPrefixOf_iff_prefix.mp h
    have hp : p = [] := List.prefix_nil.mp this
    simp [containsSub, hp]
  | cons c rest =>
    intro h
    simp [containsSub, h]

theorem containsSub_append_right (p : List Char) :
    ∀ u v, containsSub p v = true → containsSub p (u ++ v) = true := by
  intro u
  induction u with
  | nil => intro v h; simpa using h
  | cons c u0 ih =>
    intro v h
    simp only [List.cons_append, containsSub]
    have hr : containsSub p (List.append u0 v) = true := ih v h
    rw [hr]
    simp

/-- An occurrence placed between two strings is found. -/
theorem containsSub_sandwich (p u v : List Char) :
    containsSub p (u ++ p ++ v) = true := by
  rw [List.append_assoc]
  apply containsSub_append_right
  apply containsSub_of_isPrefixOf
  exact isPrefixOf_append_left p p v
    (List.isPrefixOf_iff_prefix.mpr (List.prefix_refl p))

/-- C7 counterexample: a template that contains the photo src literal and
also a bare reference to the photo filename.  After substitution the data
URI is inlined, but the bare filename reference remains, refuting the
claim's "no remaining reference to the literal relative photo filename".
(26.jpg.jpeg is the script's photo filename, the claim's "photo.jpg".) -/
theorem photo_literal_cex :
    containsSub (srcLit photo_file)
        ( "see 26.jpg.jpeg and src=\"26.jpg.jpeg\"".data) = true ∧
      photoStep (b64encode [0, 1, 2]) ( "see 26.jpg.jpeg and src=\"26.jpg.jpeg\"".data)
        = ( "see 26.jpg.jpeg and src=\"data:image/jpeg;base64,AAEC\"".data) ∧
      containsSub photo_file
        (photoStep (b64encode [0, 1, 2]) ( "see 26.jpg.jpeg and src=\"26.jpg.jpeg\"".data))
        = true := by
  refine ⟨by decide, by decide, by decide⟩

/-- C7 amended: for every template containing the photo src literal, the
output contains the full data-URI form src="data:image/jpeg;base64,B64" of
the photo bytes.  (Bare references to the filename outside the src literal
are not replaced, and remain: see the counterexample.) -/
theorem photo_subst_amended (photoBytes : List Nat) (t : List Char)
    (h : containsSub (srcLit photo_file) t = true) :
    containsSub (photoDataURI (encode_file_b64 photoBytes))
      (photoStep (encode_file_b64 photoBytes) t) = true := by
  have hne : srcLit photo_file ≠ [] := by decide
  have hm : hasMatch (litMatch (srcLit photo_file)) t = true := by
    rw [hasMatch_litMatch _ hne]
    exact h
  obtain ⟨u, v, huv⟩ :=
    subScanF_contains_repl (litMatch (srcLit photo_file))
      (photoDataURI (encode_file_b64 photoBytes)) t.length t (Nat.le_refl _) hm
  unfold photoStep subScan
  rw [huv]
  exact containsSub_sandwich _ u v

/-- Witness for C7 amended at a concrete template and photo. -/
theorem photo_subst_amended_witness :
    containsSub (srcLit photo_file) ( "x src=\"26.jpg.jpeg\" y".data) = true ∧
      containsSub (photoDataURI (encode_file_b64 [0, 1, 2]))
        (photoStep (encode_file_b64 [0, 1, 2]) ( "x src=\"26.jpg.jpeg\" y".data)) = true :=
  ⟨by decide, photo_subst_amended [0, 1, 2] ( "x src=\"26.jpg.jpeg\" y".data) (by decide)⟩

/-! ## Claim C4: what assembly leaves untouched -/

/-- The five substitutions the assembly performs, in order: the photo
literal replacement and the four object-pattern substitutions. -/
def assembleMatchers (pb : List Char) (sections : List Char → List Char) :
    List ((List Char → Option Nat) × List Char) :=
  (litMatch (srcLit photo_file), photoDataURI pb) ::
    pdf_files.map (fun n => (objMatchAt n, sections n))

/-- Coverage mask of a piece decomposition: one Bool per character,
true inside a matched segment. -/
def pieceMask : List (Bool × List Char) → List Bool
  | [] => []
  | p :: ps => p.2.map (fun _ => p.1) ++ pieceMask ps

/-- Positions of s inside a recognized placeholder occurrence: the union,
over the photo literal and the four object patterns, of the segments each
pattern matches in the original template s (the spec's "recognized
photo/PDF placeholders"). -/
def recognizedMask (s : List Char) : List Bool :=
  ((litMatch (srcLit photo_file) :: pdf_files.map objMatchAt).map
      (fun f => pieceMask (subPieces f s))).foldl
    (fun acc m => List.zipWith (fun a b => a || b) acc m) (s.map (fun _ => false))

/-- The characters of s outside every recognized placeholder, in order. -/
def recognizedUncovered (s : List Char) : List Char :=
  (List.zip s (recognizedMask s)).filterMap (fun p => if p.2 then none else some p.1)

/-- C4 counterexample: in the template
<object data="tp1.pdf">A<object data="T1.pdf">x</object>B</object>
the character B lies outside every recognized placeholder (the tp1.pdf
match stops at the first closing tag, which belongs to the inner T1.pdf
placeholder), yet assembly erases it: after the inner placeholder is
replaced, the tp1.pdf pattern matches up to the outer closing tag on the
intermediate text.  So assembly does not leave all characters outside
recognized placeholders unchanged. -/
theorem assemble_frame_cex :
    recognizedUncovered
        ( "<object data=\"tp1.pdf\">A<object data=\"T1.pdf\">x</object>B</object>".data)
      = ( "B</object>".data) ∧
    'B' ∈ recognizedUncovered
        ( "<object data=\"tp1.pdf\">A<object data=\"T1.pdf\">x</object>B</object>".data) ∧
    'B' ∉ assemble ( "PB".data)
        (fun n => if n = "T1.pdf".data then ( "f1".data) else ( "f2".data))
        ( "<object data=\"tp1.pdf\">A<object data=\"T1.pdf\">x</object>B</object>".data) ∧
    assemble ( "PB".data)
        (fun n => if n = "T1.pdf".data then ( "f1".data) else ( "f2".data))
        ( "<object data=\"tp1.pdf\">A<object data=\"T1.pdf\">x</object>B</object>".data)
      = ( "f2".data) := by
  refine ⟨by decide, by decide, by decide, by decide⟩

/-- C4 amended: assembly is the in-order composition of five substitutions,
and each single substitution has the frame property: its input decomposes
into kept characters and matched segments, the kept characters reappear
verbatim and in order in its output (only matched segments are replaced),
every matched segment of the photo step is exactly the photo src literal,
and every matched segment of a PDF step is a full match of that PDF's
object pattern.  Characters outside placeholders recognized in the original
template can still disappear when a later step's match on the intermediate
text extends past them (see the counterexample). -/
theorem assemble_frame_amended :
    (∀ pb sections html, assemble pb sections html
        = (assembleMatchers pb sections).foldl (fun h fr => subScan fr.1 fr.2 h) html) ∧
    (∀ (f : List Char → Option Nat) (repl s : List Char),
        joinOrig (subPieces f s) = s ∧ subScan f repl s = joinWith repl (subPieces f s)) ∧
    (∀ s p, p ∈ subPieces (litMatch (srcLit photo_file)) s → p.1 = true →
        p.2 = srcLit photo_file) ∧
    (∀ name s p, p ∈ subPieces (objMatchAt name) s → p.1 = true →
        objMatchAt name p.2 = some p.2.length) := by
  refine ⟨?_, ?_, ?_, ?_⟩
  · intro pb sections html
    rfl
  · intro f repl s
    exact ⟨joinOrig_subPiecesF f s.length s, subScanF_eq_joinWith f repl s.length s⟩
  · intro s p hp ht
    apply subPiecesF_matched (litMatch (srcLit photo_file))
      (fun cs => cs = srcLit photo_file) ?_ s.length s p hp ht
    intro s0 n h0
    exact litMatch_take _ s0 (by decide) n h0
  · intro name s p hp ht
    apply subPiecesF_matched (objMatchAt name)
      (fun cs => objMatchAt name cs = some cs.length) ?_ s.length s p hp ht
    intro s0 n h0
    obtain ⟨h1, hle⟩ := objMatchAt_bounds name s0 n h0
    have hmax : max n 1 = n := by omega
    rw [hmax]
    have hlen : (s0.take n).length = n := by
      rw [ List.length_take]
      omega
    rw [hlen]
    exact objMatchAt_take name s0 n h0

/-- Witness for C4 amended: concrete matched pieces for the photo literal
and for a PDF pattern. -/
theorem assemble_frame_amended_witness :
    ((true, srcLit photo_file) ∈ subPieces (litMatch (srcLit photo_file)) (srcLit photo_file) ∧
      (true, srcLit photo_file).2 = srcLit photo_file) ∧
    ((true, ( "<object data=\"T1.pdf\">x</object>".data)) ∈
        subPieces (objMatchAt ( "T1.pdf".data)) ( "<object data=\"T1.pdf\">x</object>".data) ∧
      objMatchAt ( "T1.pdf".data) ( "<object data=\"T1.pdf\">x</object>".data)
        = some (( "<object data=\"T1.pdf\">x</object>".data)).length) :=
  ⟨⟨by decide,
      assemble_frame_amended.2.2.1 (srcLit photo_file) (true, srcLit photo_file)
        (by decide) rfl⟩,
    ⟨by decide,
      assemble_frame_amended.2.2.2 ( "T1.pdf".data)
        ( "<object data=\"T1.pdf\">x</object>".data)
        (true, ( "<object data=\"T1.pdf\">x</object>".data)) (by decide) rfl⟩⟩

/-! ## Claim C9: substitutions are global -/

/-- C9 counterexample: the template src="26.jpg.jpeg"26.jpg.jpeg" has
exactly one occurrence of the photo src literal; the photo bytes encode to
AAAAsrc=, so after the (global) replacement the inserted base64 splices
with the following template text into a new occurrence of the literal.
"Zero occurrences remain in the output" is therefore false. -/
theorem global_subst_cex :
    countOccur (srcLit photo_file) ( "src=\"26.jpg.jpeg\"26.jpg.jpeg\"".data) = 1 ∧
      b64encode [0, 0, 0, 178, 183] = ( "AAAAsrc=".data) ∧
      photoStep (b64encode [0, 0, 0, 178, 183]) ( "src=\"26.jpg.jpeg\"26.jpg.jpeg\"".data)
        = ( "src=\"data:image/jpeg;base64,AAAAsrc=\"26.jpg.jpeg\"".data) ∧
      countOccur (srcLit photo_file)
        (photoStep (b64encode [0, 0, 0, 178, 183]) ( "src=\"26.jpg.jpeg\"26.jpg.jpeg\"".data))
        = 1 := by
  refine ⟨by decide, by decide, by decide, by decide⟩

/-- Number of matched segments in a piece decomposition. -/
def matchedCount (ps : List (Bool × List Char)) : Nat := (ps.filter (fun p => p.1)).length

/-- No nonempty proper suffix of p is a prefix of p. -/
def borderFree (p : List Char) : Prop :=
  ∀ d, d < p.length → 0 < d → p.drop d ≠ p.take (p.length - d)

/-- For a border-free literal, occurrences cannot overlap: no occurrence
starts strictly inside another. -/
theorem litMatch_no_overlap (p : List Char) (hbf : borderFree p) (s : List Char)
    (hp : p.isPrefixOf s = true) (d : Nat) (hd0 : 0 < d) (hdl : d < p.length) :
    p.isPrefixOf (s.drop d) = false := by
  rw [ Bool.eq_false_iff]
  intro hcon
  obtain ⟨w, hw⟩ := List.isPrefixOf_iff_prefix.mp hp
  have hdrop : s.drop d = p.drop d ++ w := by
    rw [← hw, List.drop_append_of_le_length (by omega)]
  have hpre2 : p <+: (p.drop d ++ w) := by
    rw [← hdrop]
    exact List.isPrefixOf_iff_prefix.mp hcon
  have heq := List.prefix_iff_eq_take.mp hpre2
  have htake : List.take (p.length - d) p = p.drop d := by
    have h1 : List.take (p.length - d) p
        = List.take (p.length - d) (List.take p.length (p.drop d ++ w)) := by
      rw [← heq]
    rw [h1, List.take_take] at *
    have hmin : min (p.length - d) p.length = p.length - d := by omega
    rw [hmin]
    have hlen : (p.drop d).length = p.length - d := by
      rw [ List.length_drop]
    rw [ List.take_append_of_le_length (by omega), ← hlen, List.take_length]
  exact hbf d hdl hd0 htake.symm

/-- Skipping positions known to hold no occurrence. -/
theorem countOccur_skip (hc : Char) (pt : List Char) :
    ∀ m s, 1 ≤ m → (∀ d, 1 ≤ d → d < m → (hc :: pt).isPrefixOf (s.drop d) = false) →
      countOccur (hc :: pt) s
        = (if (hc :: pt).isPrefixOf s then 1 else 0) + countOccur (hc :: pt) (s.drop m) := by
  intro m
  induction m with
  | zero => intro s h1; omega
  | succ m0 ih =>
    intro s h1 hno
    cases s with
    | nil => simp [countOccur]
    | cons c rest =>
      cases Nat.eq_or_lt_of_le h1 with
      | inl hm1 =>
        rw [← hm1]
        simp [countOccur]
      | inr hm1 =>
        have hm0 : 1 ≤ m0 := by omega
        have hpre_rest : (hc :: pt).isPrefixOf rest = false := by
          have := hno 1 (by omega) (by omega)
          simpa using this
        have hno_rest : ∀ d, 1 ≤ d → d < m0 → (hc :: pt).isPrefixOf (rest.drop d) = false := by
          intro d hd1 hdm
          have := hno (d + 1) (by omega) (by omega)
          rw [ List.drop_succ_cons] at this
          exact this
        have hrec := ih rest hm0 hno_rest
        simp only [countOccur, List.drop_succ_cons]
        rw [hrec, hpre_rest]
        simp

theorem matchedCount_cons (b : Bool) (cs : List Char) (ps : List (Bool × List Char)) :
    matchedCount ((b, cs) :: ps) = (if b then 1 else 0) + matchedCount ps := by
  cases b
  · simp [matchedCount, List.filter_cons]
  · simp only [matchedCount, List.filter_cons]
    simp
    omega


/-- For a border-free literal, the scan finds every occurrence: the number
of matched segments equals the number of occurrences. -/
theorem matchedCount_subPiecesF (hc : Char) (pt : List Char)
    (hbf : borderFree (hc :: pt)) :
    ∀ fuel s, s.length ≤ fuel →
      matchedCount (subPiecesF (litMatch (hc :: pt)) fuel s)
        = countOccur (hc :: pt) s := by
  intro fuel
  induction fuel with
  | zero =>
    intro s hlen
    have hs : s = [] := List.length_eq_zero.mp (Nat.le_zero.mp hlen)
    subst hs
    simp [subPiecesF, matchedCount, countOccur]
  | succ fuel ih =>
    intro s hlen
    cases s with
    | nil => simp [subPiecesF, matchedCount, countOccur]
    | cons c rest =>
      simp only [subPiecesF]
      cases hf : litMatch (hc :: pt) (c :: rest) with
      | none =>
        have hnp : (hc :: pt).isPrefixOf (c :: rest) = false := by
          unfold litMatch at hf
          split at hf
          case isTrue h => simp at hf
          case isFalse h => exact Bool.eq_false_iff.mpr h
        rw [matchedCount_cons]
        simp only [countOccur, hnp]
        have hr : rest.length ≤ fuel := by
          simp only [List.length_cons] at hlen; omega
        rw [ih rest hr]
      | some n =>
        have hstruct : n = (hc :: pt).length ∧ (hc :: pt).isPrefixOf (c :: rest) = true := by
          unfold litMatch at hf
          split at hf
          case isTrue h => exact ⟨(Option.some.inj hf).symm, h⟩
          case isFalse h => exact absurd hf (by simp)
        obtain ⟨hn, hpre⟩ := hstruct
        have hn1 : 1 ≤ n := by rw [hn]; simp
        have hmax : max n 1 = n := by omega
        rw [matchedCount_cons, hmax]
        have hdl : (List.drop n (c :: rest)).length ≤ fuel := by
          rw [ List.length_drop]
          simp only [List.length_cons] at hlen ⊢
          omega
        rw [ih _ hdl]
        have hno : ∀ d, 1 ≤ d → d < n →
            (hc :: pt).isPrefixOf ((c :: rest).drop d) = false := by
          intro d hd1 hdn
          exact litMatch_no_overlap (hc :: pt) hbf (c :: rest) hpre d (by omega)
            (by omega)
        rw [countOccur_skip hc pt n (c :: rest) (by omega) hno, hpre]

/-- C9 amended: substitutions are global.  The photo step replaces every
occurrence of the src literal (the literal is border-free, so occurrences
never overlap and the count of matched segments equals the occurrence
count), each with the same data URI; each PDF step replaces every matched
segment with the same fragment; only matched segments change.  New
occurrences can, however, be spliced together from inserted data and
adjacent template text (see the counterexample), so zero occurrences need
not remain in the output. -/
theorem global_subst_amended :
    (∀ pb t,
        matchedCount (subPieces (litMatch (srcLit photo_file)) t)
            = countOccur (srcLit photo_file) t ∧
          photoStep pb t
            = joinWith (photoDataURI pb) (subPieces (litMatch (srcLit photo_file)) t) ∧
          joinOrig (subPieces (litMatch (srcLit photo_file)) t) = t) ∧
    (∀ name frag t,
        pdfStep name frag t = joinWith frag (subPieces (objMatchAt name) t) ∧
          joinOrig (subPieces (objMatchAt name) t) = t) := by
  constructor
  · intro pb t
    have hS : srcLit photo_file = 's' :: ( "rc=\"26.jpg.jpeg\"".data) := by decide
    refine ⟨?_, ?_, ?_⟩
    · rw [hS]
      exact matchedCount_subPiecesF 's' ( "rc=\"26.jpg.jpeg\"".data)
        (by unfold borderFree; decide) t.length t (Nat.le_refl _)
    · exact subScanF_eq_joinWith _ _ t.length t
    · exact joinOrig_subPiecesF _ t.length t
  · intro name frag t
    exact ⟨subScanF_eq_joinWith _ _ t.length t, joinOrig_subPiecesF _ t.length t⟩

/-! ## Claim C10: order of the four PDF substitutions -/

/-- The four PDF substitutions applied over a given order of names
(the script uses the order pdf_files). -/
def applyPdfOrder (sections : List Char → List Char) (order : List (List Char))
    (html : List Char) : List Char :=
  order.foldl (fun h n => pdfStep n (sections n) h) html

/-- C10 counterexample: a single object region naming two PDF files matches
two patterns; whichever substitution runs first consumes the region, so two
application orders give different outputs. -/
theorem pdf_subst_order_cex :
    applyPdfOrder
        (fun n => if n = "T1.pdf".data then ( "f1".data) else ( "f2".data))
        pdf_files
        ( "<object data=\"T1.pdf\" data=\"tp1.pdf\">x</object>".data)
      = ( "f1".data) ∧
    applyPdfOrder
        (fun n => if n = "T1.pdf".data then ( "f1".data) else ( "f2".data))
        [ "tp1.pdf".data, "T1.pdf".data, "T2.pdf".data, "tp2.pdf".data]
        ( "<object data=\"T1.pdf\" data=\"tp1.pdf\">x</object>".data)
      = ( "f2".data) ∧
    List.Perm [ "tp1.pdf".data, "T1.pdf".data, "T2.pdf".data, "tp2.pdf".data] pdf_files ∧
    ( "f1".data) ≠ (( "f2".data) : List Char) := by
  refine ⟨by decide, by decide, by decide, by decide⟩

theorem applyPdfOrder_noop (sections : List Char → List Char) :
    ∀ order s, (∀ q ∈ order, hasMatch (objMatchAt q) s = false) →
      applyPdfOrder sections order s = s := by
  intro order
  induction order with
  | nil => intro s _; rfl
  | cons q rest ih =>
    intro s h
    simp only [applyPdfOrder, List.foldl_cons]
    have hq : pdfStep q (sections q) s = s :=
      subScanF_of_no_match _ _ _ s (h q (List.mem_cons_self _ _))
    rw [hq]
    exact ih s (fun r hr => h r (List.mem_cons_of_mem _ hr))

/-- C10 amended: the four substitutions are not order-independent in
general (see the counterexample: a region matching two patterns goes to
whichever runs first).  They are order-independent when only one pattern P
is active: if every other pattern matches neither the template nor the
result of P's substitution, then every application order of the four names
produces exactly P's substitution. -/
theorem pdf_subst_order_amended (sections : List Char → List Char)
    (t : List Char) (P : List Char) (order : List (List Char))
    (hperm : List.Perm order pdf_files) (hP : P ∈ pdf_files)
    (hothers : ∀ q ∈ pdf_files, q ≠ P →
      hasMatch (objMatchAt q) t = false ∧
        hasMatch (objMatchAt q) (pdfStep P (sections P) t) = false) :
    applyPdfOrder sections order t = pdfStep P (sections P) t := by
  have hsub : ∀ order2, order2.Nodup → P ∈ order2 →
      (∀ q ∈ order2, q ∈ pdf_files) →
      applyPdfOrder sections order2 t = pdfStep P (sections P) t := by
    intro order2
    induction order2 with
    | nil => intro _ hPm _; simp at hPm
    | cons q rest ih =>
      intro hnd hPm hmem
      by_cases hqP : q = P
      · subst hqP
        have hrest0 : q ∉ rest := (List.nodup_cons.mp hnd).1
        have hnot : ∀ r ∈ rest,
            hasMatch (objMatchAt r) (pdfStep q (sections q) t) = false := by
          intro r hr
          have hrne : r ≠ q := by
            intro he
            rw [he] at hr
            exact absurd hr hrest0
          exact (hothers r (hmem r (List.mem_cons_of_mem _ hr)) hrne).2
        simp only [applyPdfOrder, List.foldl_cons]
        exact applyPdfOrder_noop sections rest _ hnot
      · have hq0 : pdfStep q (sections q) t = t :=
          subScanF_of_no_match _ _ _ t
            (hothers q (hmem q (List.mem_cons_self _ _)) hqP).1
        simp only [applyPdfOrder, List.foldl_cons]
        rw [hq0]
        apply ih (List.nodup_cons.mp hnd).2
        · rcases List.mem_cons.mp hPm with he | hPm2
          · exact absurd he.symm hqP
          · exact hPm2
        · intro r hr
          exact hmem r (List.mem_cons_of_mem _ hr)
  apply hsub order
  · exact hperm.nodup_iff.mpr (by decide)
  · exact hperm.mem_iff.mpr hP
  · intro q hq
    exact hperm.mem_iff.mp hq

/-- Witness for C10 amended: a template in which only the T1.pdf pattern is
active, substituted in a permuted order. -/
theorem pdf_subst_order_amended_witness :
    List.Perm [ "tp1.pdf".data, "T1.pdf".data, "tp2.pdf".data, "T2.pdf".data] pdf_files ∧
      ( "T1.pdf".data) ∈ pdf_files ∧
      (∀ q ∈ pdf_files, q ≠ ( "T1.pdf".data) →
        hasMatch (objMatchAt q) ( "<object data=\"T1.pdf\">x</object>".data) = false ∧
          hasMatch (objMatchAt q)
            (pdfStep ( "T1.pdf".data)
              ((fun n => if n = "T1.pdf".data then ( "f1".data) else ( "f2".data))
                ( "T1.pdf".data))
              ( "<object data=\"T1.pdf\">x</object>".data)) = false) ∧
      applyPdfOrder
          (fun n => if n = "T1.pdf".data then ( "f1".data) else ( "f2".data))
          [ "tp1.pdf".data, "T1.pdf".data, "tp2.pdf".data, "T2.pdf".data]
          ( "<object data=\"T1.pdf\">x</object>".data)
        = pdfStep ( "T1.pdf".data)
            ((fun n => if n = "T1.pdf".data then ( "f1".data) else ( "f2".data))
              ( "T1.pdf".data))
            ( "<object data=\"T1.pdf\">x</object>".data) :=
  ⟨by decide, by decide, by decide,
    pdf_subst_order_amended
      (fun n => if n = "T1.pdf".data then ( "f1".data) else ( "f2".data))
      ( "<object data=\"T1.pdf\">x</object>".data) ( "T1.pdf".data)
      [ "tp1.pdf".data, "T1.pdf".data, "tp2.pdf".data, "T2.pdf".data]
      (by decide) (by decide) (by decide)⟩
